import Mathlib

/-!
Verification of the LRU multicore cache simulator.

The repository's `src/Index.tsx` is the driver: it owns the multicore cache
state, the per-core statistics, the event log and the current step counter,
and calls into the simulation engine (`initializeCache`,
`generateRandomAccesses`, `simulateCacheAccess` from `@/utils/cacheSimulator`)
once per discrete time step.  The engine module itself is not part of the
sources available here, so its operations are modelled from the spec
(sections 4.1-4.3); the driver logic (stats fold, step guard, reset) is
embedded directly from `src/Index.tsx`.
-/

namespace CacheSim

/-- Read/Write access kind (spec section 3, `MemoryAccess.kind`). -/
inductive AccessKind where
  | read : AccessKind
  | write : AccessKind
deriving DecidableEq, Repr

/-- Coherence state of a cache line (spec section 3). -/
inductive CoherenceState where
  | invalid : CoherenceState
  | shared : CoherenceState
  | modified : CoherenceState
deriving DecidableEq, Repr

/-- One slot of one core's cache (spec section 3, `CacheLine`).  The
`lastOffset` field records the line offset of the last access to this line;
it is the "line's own history" the false-sharing tie-break of spec
section 4.3 step 5 consults. -/
structure CacheLine where
  valid : Bool
  tag : Nat
  coherenceState : CoherenceState
  recency : Nat
  lastOffset : Nat
deriving DecidableEq, Repr

/-- `MemoryAccess` (spec section 3). -/
structure MemoryAccess where
  step : Nat
  coreId : Nat
  address : Nat
  kind : AccessKind
deriving DecidableEq, Repr

/-- Event type as used by `src/Index.tsx` (strings "hit", "miss",
"eviction", "false-sharing") and spec section 3. -/
inductive EventType where
  | hit : EventType
  | miss : EventType
  | eviction : EventType
  | falseSharing : EventType
deriving DecidableEq, Repr

/-- `CacheEvent` (spec section 3).  Per spec section 4.3 step 3 the eviction
of a valid victim is carried as a secondary flag, not as the event's type. -/
structure CacheEvent where
  step : Nat
  coreId : Nat
  address : Nat
  type : EventType
  involvedCores : List Nat
  evicted : Bool
deriving DecidableEq, Repr

/-- Per-core statistics counters (spec section 3, `src/Index.tsx`). -/
structure CacheStats where
  hits : Nat
  misses : Nat
  falseSharingCount : Nat
  totalAccesses : Nat
deriving DecidableEq, Repr

/-- Line size in words (spec section 4.3: "a configurable constant,
e.g. 4 words"). -/
def lineSize : Nat := 4

/-- Cache capacity (associativity) per core (spec section 3: "fixed
capacity C per core, e.g., C = 4"). -/
def cacheCapacity : Nat := 4

/-- `blockTag = address div lineSize` (spec section 4.3). -/
def blockTag (address : Nat) : Nat := address / lineSize

/-- `lineOffset = address mod lineSize` (spec section 4.3). -/
def lineOffset (address : Nat) : Nat := address % lineSize

/-- The all-invalid initial line value (spec section 4.1). -/
def emptyLine : CacheLine :=
  { valid := false, tag := 0, coherenceState := .invalid, recency := 0, lastOffset := 0 }

/-- Modelled from the spec: `initializeCache` of `@/utils/cacheSimulator`
(absent from src/).  Spec section 4.1: `numCores` caches, each with `C`
lines, all invalid with recency 0. -/
def initializeCache (numCores : Nat) : List (List CacheLine) :=
  List.replicate numCores (List.replicate cacheCapacity emptyLine)

/-- Index of the first valid line with the given tag (spec section 4.3
step 1: linear scan of `caches[coreId]`). -/
def findLineIdx (cache : List CacheLine) (tag : Nat) : Option Nat :=
  match cache with
  | [] => none
  | l :: rest =>
    if l.valid = true ∧ l.tag = tag then some 0
    else (findLineIdx rest tag).map (· + 1)

/-- Index of the first invalid slot, if any (spec section 4.3 step 3). -/
def findInvalidIdx (cache : List CacheLine) : Option Nat :=
  match cache with
  | [] => none
  | l :: rest =>
    if l.valid = false then some 0
    else (findInvalidIdx rest).map (· + 1)

/-- Index of the line with the smallest recency, ties broken by lowest
slot index (spec section 4.3 step 3). -/
def lruIdx : List CacheLine → Nat
  | [] => 0
  | [_] => 0
  | l :: r :: rs =>
    if l.recency ≤ ((r :: rs).getD (lruIdx (r :: rs)) emptyLine).recency then 0
    else lruIdx (r :: rs) + 1

/-- Victim slot selection (spec section 4.3 step 3): first invalid slot if
one exists, otherwise the LRU slot. -/
def victimIdx (cache : List CacheLine) : Nat :=
  match findInvalidIdx cache with
  | some i => i
  | none => lruIdx cache

/-- Invalidate every valid line with the given tag in one core's cache
(spec section 4.3 step 4). -/
def invalidateLine (cache : List CacheLine) (tag : Nat) : List CacheLine :=
  cache.map fun l =>
    if l.valid = true ∧ l.tag = tag then
      { l with valid := false, coherenceState := .invalid }
    else l

/-- Does the cache hold a valid line with the given tag? -/
def holdsTag (cache : List CacheLine) (tag : Nat) : Bool :=
  cache.any fun l => l.valid && l.tag == tag

/-- Last-access offsets of the valid lines with the given tag in one
core's cache. -/
def offsetsOfTag (cache : List CacheLine) (tag : Nat) : List Nat :=
  (cache.filter fun l => l.valid && l.tag == tag).map (·.lastOffset)

/-- Offsets (per-line history) of the lines the invalidation broadcast
hits: all valid lines with the given tag in every core other than
`coreId` (spec section 4.3 steps 4-5). -/
def invalidatedOffsets (caches : List (List CacheLine)) (coreId tag : Nat) : List Nat :=
  (List.range caches.length).flatMap fun c =>
    if c = coreId then [] else offsetsOfTag (caches.getD c []) tag

/-- Ids of the other cores holding a valid line with the given tag
(`involvedCores` of spec section 4.3 step 4). -/
def otherHolders (caches : List (List CacheLine)) (coreId tag : Nat) : List Nat :=
  (List.range caches.length).filter fun c =>
    c ≠ coreId ∧ holdsTag (caches.getD c []) tag = true

/-- Apply the invalidation broadcast: every core other than `coreId` has
its valid lines with the given tag invalidated (spec section 4.3 step 4). -/
def broadcastInvalidate (caches : List (List CacheLine)) (coreId tag : Nat) :
    List (List CacheLine) :=
  (List.range caches.length).map fun c =>
    if c = coreId then caches.getD c [] else invalidateLine (caches.getD c []) tag

/-- The false-sharing tie-break of spec section 4.3 step 5: the broadcast
invalidated at least one other core's line whose last access was at a
different line offset than the current access. -/
def falseSharingCond (caches : List (List CacheLine)) (coreId tag off : Nat) : Bool :=
  (invalidatedOffsets caches coreId tag).any fun o => o ≠ off

/-- Modelled from the spec: `simulateCacheAccess` of
`@/utils/cacheSimulator` (absent from src/), the access simulator `step`
of spec section 4.3.  `time` is the global recency counter the driver
passes (`currentStep` in `src/Index.tsx`).  The invalidation broadcast of
step 4 runs exactly when the access is a Write (installing or upgrading a
line to Modified happens only then); step 5 then forces the event type to
`falseSharing` when the broadcast invalidated a differently-offset line. -/
def simulateCacheAccess (access : MemoryAccess) (caches : List (List CacheLine))
    (time : Nat) : CacheEvent × List (List CacheLine) :=
  let tag := blockTag access.address
  let off := lineOffset access.address
  let cache := caches.getD access.coreId []
  match findLineIdx cache tag with
  | some i =>
    let line := cache.getD i emptyLine
    let newLine : CacheLine :=
      { line with
        coherenceState := if access.kind = .write then .modified else line.coherenceState,
        recency := time,
        lastOffset := off }
    let caches1 := caches.set access.coreId (cache.set i newLine)
    match access.kind with
    | .write =>
      let ty := if falseSharingCond caches1 access.coreId tag off = true then
          EventType.falseSharing else EventType.hit
      (⟨access.step, access.coreId, access.address, ty,
        otherHolders caches1 access.coreId tag, false⟩,
       broadcastInvalidate caches1 access.coreId tag)
    | .read =>
      (⟨access.step, access.coreId, access.address, .hit, [], false⟩, caches1)
  | none =>
    let v := victimIdx cache
    let victim := cache.getD v emptyLine
    let newLine : CacheLine :=
      { valid := true, tag := tag,
        coherenceState := if access.kind = .write then .modified else .shared,
        recency := time, lastOffset := off }
    let caches1 := caches.set access.coreId (cache.set v newLine)
    match access.kind with
    | .write =>
      let ty := if falseSharingCond caches1 access.coreId tag off = true then
          EventType.falseSharing else EventType.miss
      (⟨access.step, access.coreId, access.address, ty,
        otherHolders caches1 access.coreId tag, victim.valid⟩,
       broadcastInvalidate caches1 access.coreId tag)
    | .read =>
      (⟨access.step, access.coreId, access.address, .miss, [], victim.valid⟩, caches1)

/-- Does the cache hold a valid Modified line with the given tag?
(Spec section 3 coherence invariant.) -/
def HoldsModified (cache : List CacheLine) (tag : Nat) : Prop :=
  ∃ l ∈ cache, l.valid = true ∧ l.coherenceState = .modified ∧ l.tag = tag

instance (cache : List CacheLine) (tag : Nat) : Decidable (HoldsModified cache tag) := by
  unfold HoldsModified; infer_instance

/-- Run a sequence of simulator steps, each with its own recency/time
stamp, threading the multicore cache state (the driver's replay loop). -/
def runSteps (steps : List (MemoryAccess × Nat)) (caches : List (List CacheLine)) :
    List (List CacheLine) :=
  steps.foldl (fun cs p => (simulateCacheAccess p.1 cs p.2).2) caches

/-- Run a list of accesses from time `t`, incrementing the time stamp by
one per access (as the driver does with `currentStep`), collecting the
events. -/
def runEvents (accesses : List MemoryAccess) (caches : List (List CacheLine))
    (t : Nat) : List CacheEvent × List (List CacheLine) :=
  match accesses with
  | [] => ([], caches)
  | a :: rest =>
    let r := simulateCacheAccess a caches t
    let rst := runEvents rest r.2 (t + 1)
    (r.1 :: rst.1, rst.2)

/-! ### The driver, embedded from `src/Index.tsx` -/

/-- `NUM_CORES` of `src/Index.tsx`. -/
def NUM_CORES : Nat := 4

/-- The zero per-core counters of `src/Index.tsx` (`useState` initial
value and `handleReset`). -/
def zeroStats : CacheStats :=
  { hits := 0, misses := 0, falseSharingCount := 0, totalAccesses := 0 }

/-- The stats fold of `src/Index.tsx` `executeStep` (lines 74-90):
`totalAccesses++` always; `hits++` on "hit"; `misses++` on "miss" or
"eviction"; `falseSharingCount++` on "false-sharing". -/
def fold (event : CacheEvent) (s : CacheStats) : CacheStats :=
  { s with
    totalAccesses := s.totalAccesses + 1,
    hits := if event.type = .hit then s.hits + 1 else s.hits,
    misses := if event.type = .miss ∨ event.type = .eviction then s.misses + 1 else s.misses,
    falseSharingCount :=
      if event.type = .falseSharing then s.falseSharingCount + 1 else s.falseSharingCount }

/-- The driver's authoritative state (`useState` hooks of `src/Index.tsx`). -/
structure DriverState where
  caches : List (List CacheLine)
  memoryAccesses : List MemoryAccess
  currentStep : Nat
  isRunning : Bool
  stats : List CacheStats
  events : List CacheEvent
deriving DecidableEq, Repr

/-- The driver state after `handleReset` with a given generated access
sequence (`src/Index.tsx` lines 19-33 and 102-116). -/
def initialDriver (accesses : List MemoryAccess) : DriverState :=
  { caches := initializeCache NUM_CORES,
    memoryAccesses := accesses,
    currentStep := 0,
    isRunning := false,
    stats := List.replicate NUM_CORES zeroStats,
    events := [] }

/-- `executeStep` of `src/Index.tsx` (lines 56-93): guard against running
past the end of the sequence; otherwise simulate the current access,
replace the caches, append the event, fold the stats for the accessing
core, and advance `currentStep`. -/
def executeStep (s : DriverState) : DriverState :=
  if s.memoryAccesses.length ≤ s.currentStep then { s with isRunning := false }
  else
    let access := s.memoryAccesses.getD s.currentStep ⟨0, 0, 0, .read⟩
    let r := simulateCacheAccess access s.caches s.currentStep
    { s with
      caches := r.2,
      events := s.events ++ [r.1],
      stats := s.stats.set access.coreId (fold r.1 (s.stats.getD access.coreId zeroStats)),
      currentStep := s.currentStep + 1 }

/-- `handleStep` of `src/Index.tsx` (lines 118-122). -/
def handleStep (s : DriverState) : DriverState :=
  if s.currentStep < s.memoryAccesses.length then executeStep s else s

/-- Sum of the per-core `totalAccesses` counters. -/
def totalSum (stats : List CacheStats) : Nat :=
  (stats.map (·.totalAccesses)).sum

/-! ### The access generator, modelled from the spec (section 4.2) -/

/-- Linear congruential update of the generator's seed state. -/
def lcgNext (s : Nat) : Nat := (s * 1103515245 + 12345) % 2 ^ 31

/-- Draw a pseudo-random number below `bound`, returning it with the new
seed state. -/
def drawNat (s bound : Nat) : Nat × Nat :=
  let s1 := lcgNext s
  (s1 % bound, s1)

/-- Address range the generator draws uniform addresses from. -/
def addressRange : Nat := 64

/-- Modelled from the spec: the false-sharing-engineering branch of the
generator (spec section 4.2): choose an address mapping to a block tag
recently touched by a *different* core, at a different intra-line offset.
`recent` lists previously generated `(coreId, address)` pairs, most
recent first. -/
def fsAddress (recent : List (Nat × Nat)) (coreId : Nat) : Option Nat :=
  match recent.find? (fun p => p.1 ≠ coreId) with
  | some p => some (blockTag p.2 * lineSize + (lineOffset p.2 + 1) % lineSize)
  | none => none

/-- Modelled from the spec: one generated access (spec section 4.2): pick
a core uniformly; with probability `p` engineer a false-sharing address,
otherwise draw a uniform address; pick Read/Write with a fixed read bias. -/
def genOne (stepNo numCores : Nat) (p : ℚ) (recent : List (Nat × Nat)) (seed : Nat) :
    MemoryAccess × Nat :=
  let d1 := drawNat seed numCores
  let c := d1.1
  let d2 := drawNat d1.2 1000000
  let fsBranch : Bool := (d2.1 : ℚ) < p * 1000000
  let d3 := drawNat d2.2 addressRange
  let address :=
    if fsBranch = true then
      match fsAddress recent c with
      | some a => a
      | none => d3.1
    else d3.1
  let d4 := drawNat d3.2 4
  let kind := if d4.1 = 0 then AccessKind.write else AccessKind.read
  (⟨stepNo, c, address, kind⟩, d4.2)

/-- Modelled from the spec: the generator's main loop, assigning step
numbers sequentially (spec section 4.2). -/
def genLoop (count stepNo numCores : Nat) (p : ℚ) (recent : List (Nat × Nat))
    (seed : Nat) : List MemoryAccess :=
  match count with
  | 0 => []
  | n + 1 =>
    let r := genOne stepNo numCores p recent seed
    r.1 :: genLoop n (stepNo + 1) numCores p ((r.1.coreId, r.1.address) :: recent) r.2

/-- Modelled from the spec: `generateRandomAccesses` of
`@/utils/cacheSimulator` (absent from src/), the boundary `generate` of
spec sections 4.2, 6 and 7: validates `count ≥ 0`, `numCores ≥ 1`,
`falseSharingProbability ∈ [0,1]`, failing fast on invalid input, and
accepts a seed with a default (spec section 4.2 determinism). -/
def generateRandomAccesses (count numCores : Int) (p : ℚ) (seed : Nat := 42) :
    Except String (List MemoryAccess) :=
  if count < 0 then .error "negative count"
  else if numCores < 1 then .error "numCores out of range"
  else if p < 0 ∨ 1 < p then .error "falseSharingProbability out of range"
  else .ok (genLoop count.toNat 0 numCores.toNat p [] seed)

/-- Modelled from the spec: the validating boundary of the access
simulator `step` (spec sections 4.3 and 7): `coreId` out of
`[0, numCores)` or a negative `address` is rejected fast, never clamped. -/
def stepChecked (coreId address : Int) (kind : AccessKind)
    (caches : List (List CacheLine)) (time stepNo : Nat) :
    Except String (CacheEvent × List (List CacheLine)) :=
  if coreId < 0 ∨ (caches.length : Int) ≤ coreId then .error "coreId out of range"
  else if address < 0 then .error "negative address"
  else .ok (simulateCacheAccess ⟨stepNo, coreId.toNat, address.toNat, kind⟩ caches time)

/-! ### Basic list helpers -/

lemma getD_set_ne {α : Type} (l : List α) (i j : Nat) (x d : α) (h : i ≠ j) :
    (l.set i x).getD j d = l.getD j d := by
  simp [List.getD_eq_getElem?_getD, List.getElem?_set_ne h]

lemma flatMap_congr {α β : Type} (l : List α) (f g : α → List β)
    (h : ∀ a ∈ l, f a = g a) : l.flatMap f = l.flatMap g := by
  induction l with
  | nil => rfl
  | cons a t ih =>
    simp only [List.flatMap_cons]
    rw [h a (List.mem_cons_self a t), ih fun b hb => h b (List.mem_cons_of_mem a hb)]

/-! ### Lookup and victim-selection lemmas -/

lemma findLineIdx_eq_none {cache : List CacheLine} {tag : Nat} :
    findLineIdx cache tag = none ↔ ∀ l ∈ cache, l.valid = true → l.tag ≠ tag := by
  induction cache with
  | nil => simp [findLineIdx]
  | cons l rest ih =>
    rw [findLineIdx]
    by_cases h : l.valid = true ∧ l.tag = tag
    · rw [if_pos h]
      simp only [List.mem_cons]
      constructor
      · intro hsome; exact Option.noConfusion hsome
      · intro hall; exact absurd h.2 (hall l (Or.inl rfl) h.1)
    · rw [if_neg h]
      simp only [Option.map_eq_none', ih, List.mem_cons]
      constructor
      · rintro hall l' (rfl | hl') hv
        · intro ht; exact h ⟨hv, ht⟩
        · exact hall l' hl' hv
      · intro hall l' hl' hv
        exact hall l' (Or.inr hl') hv

lemma findLineIdx_some {cache : List CacheLine} {tag : Nat} {i : Nat}
    (h : findLineIdx cache tag = some i) :
    i < cache.length ∧ (cache.getD i emptyLine).valid = true ∧
      (cache.getD i emptyLine).tag = tag := by
  induction cache generalizing i with
  | nil => simp [findLineIdx] at h
  | cons l rest ih =>
    by_cases hc : l.valid = true ∧ l.tag = tag
    · simp only [findLineIdx, if_pos hc, Option.some.injEq] at h
      subst h
      simpa using hc
    · simp only [findLineIdx, if_neg hc, Option.map_eq_some'] at h
      obtain ⟨j, hj, rfl⟩ := h
      obtain ⟨h1, h2, h3⟩ := ih hj
      exact ⟨Nat.succ_lt_succ h1, by simpa using h2, by simpa using h3⟩

lemma findInvalidIdx_eq_none {cache : List CacheLine}
    (h : ∀ l ∈ cache, l.valid = true) : findInvalidIdx cache = none := by
  induction cache with
  | nil => rfl
  | cons l rest ih =>
    have hl := h l (List.mem_cons_self l rest)
    simp only [findInvalidIdx, hl]
    simp [ih fun b hb => h b (List.mem_cons_of_mem l hb)]

lemma findInvalidIdx_some {cache : List CacheLine} {i : Nat}
    (h : findInvalidIdx cache = some i) :
    i < cache.length ∧ (cache.getD i emptyLine).valid = false := by
  induction cache generalizing i with
  | nil => simp [findInvalidIdx] at h
  | cons l rest ih =>
    by_cases hc : l.valid = false
    · simp only [findInvalidIdx, if_pos hc, Option.some.injEq] at h
      subst h
      simpa using hc
    · simp only [findInvalidIdx, if_neg hc, Option.map_eq_some'] at h
      obtain ⟨j, hj, rfl⟩ := h
      obtain ⟨h1, h2⟩ := ih hj
      exact ⟨Nat.succ_lt_succ h1, by simpa using h2⟩

lemma lruIdx_cons₂ (l r : CacheLine) (rs : List CacheLine) :
    lruIdx (l :: r :: rs) =
      if l.recency ≤ ((r :: rs).getD (lruIdx (r :: rs)) emptyLine).recency then 0
      else lruIdx (r :: rs) + 1 := by
  rw [lruIdx]

lemma lruIdx_lt_length : ∀ (cache : List CacheLine), cache ≠ [] → lruIdx cache < cache.length
  | [], h => absurd rfl h
  | [_], _ => by simp [lruIdx]
  | l :: r :: rs, _ => by
    rw [lruIdx_cons₂]
    by_cases hle : l.recency ≤ ((r :: rs).getD (lruIdx (r :: rs)) emptyLine).recency
    · rw [if_pos hle]; simp
    · rw [if_neg hle]
      have h2 := lruIdx_lt_length (r :: rs) (by simp)
      simpa [Nat.succ_lt_succ_iff] using h2

lemma lruIdx_min : ∀ (cache : List CacheLine), ∀ k < cache.length,
    (cache.getD (lruIdx cache) emptyLine).recency ≤ (cache.getD k emptyLine).recency
  | [], k, hk => by simp at hk
  | [_], 0, _ => by simp [lruIdx]
  | [_], k + 1, hk => absurd hk (by simp)
  | l :: r :: rs, k, hk => by
    rw [lruIdx_cons₂]
    by_cases hle : l.recency ≤ ((r :: rs).getD (lruIdx (r :: rs)) emptyLine).recency
    · rw [if_pos hle]
      match k with
      | 0 => simp
      | k + 1 =>
        simp only [List.getD_cons_zero, List.getD_cons_succ]
        exact le_trans hle (lruIdx_min (r :: rs) k (by simpa using hk))
    · rw [if_neg hle]
      push_neg at hle
      match k with
      | 0 =>
        simp only [List.getD_cons_zero, List.getD_cons_succ]
        exact le_of_lt hle
      | k + 1 =>
        simp only [List.getD_cons_succ]
        exact lruIdx_min (r :: rs) k (by simpa using hk)

lemma lruIdx_first : ∀ (cache : List CacheLine), ∀ k < cache.length,
    (cache.getD k emptyLine).recency = (cache.getD (lruIdx cache) emptyLine).recency →
    lruIdx cache ≤ k
  | [], k, hk => by simp at hk
  | [_], k, _ => by simp [lruIdx]
  | l :: r :: rs, k, hk => by
    rw [lruIdx_cons₂]
    by_cases hle : l.recency ≤ ((r :: rs).getD (lruIdx (r :: rs)) emptyLine).recency
    · rw [if_pos hle]; intro _; exact Nat.zero_le k
    · rw [if_neg hle]
      push_neg at hle
      match k with
      | 0 =>
        simp only [List.getD_cons_zero, List.getD_cons_succ]
        intro heq
        exact absurd heq (ne_of_gt hle)
      | k + 1 =>
        simp only [List.getD_cons_succ]
        intro heq
        exact Nat.succ_le_succ (lruIdx_first (r :: rs) k (by simpa using hk) heq)

/-! ### Offsets, broadcast and invalidation lemmas -/

lemma mem_offsetsOfTag {o : Nat} {cache : List CacheLine} {tag : Nat} :
    o ∈ offsetsOfTag cache tag ↔
      ∃ l ∈ cache, l.valid = true ∧ l.tag = tag ∧ l.lastOffset = o := by
  simp only [offsetsOfTag, List.mem_map, List.mem_filter, Bool.and_eq_true, beq_iff_eq]
  constructor
  · rintro ⟨l, ⟨hl, hv, ht⟩, ho⟩
    exact ⟨l, hl, hv, ht, ho⟩
  · rintro ⟨l, hl, hv, ht, ho⟩
    exact ⟨l, ⟨hl, hv, ht⟩, ho⟩

lemma mem_invalidatedOffsets {o : Nat} {caches : List (List CacheLine)} {coreId tag : Nat} :
    o ∈ invalidatedOffsets caches coreId tag ↔
      ∃ c, c < caches.length ∧ c ≠ coreId ∧ o ∈ offsetsOfTag (caches.getD c []) tag := by
  simp only [invalidatedOffsets, List.mem_flatMap, List.mem_range]
  constructor
  · rintro ⟨c, hc, hmem⟩
    by_cases hcc : c = coreId
    · simp [hcc] at hmem
    · exact ⟨c, hc, hcc, by simpa [hcc] using hmem⟩
  · rintro ⟨c, hc, hcc, hmem⟩
    exact ⟨c, hc, by simpa [hcc] using hmem⟩

lemma falseSharingCond_iff {caches : List (List CacheLine)} {coreId tag off : Nat} :
    falseSharingCond caches coreId tag off = true ↔
      ∃ o ∈ invalidatedOffsets caches coreId tag, o ≠ off := by
  simp [falseSharingCond, List.any_eq_true]

lemma invalidatedOffsets_set_self (caches : List (List CacheLine)) (i tag : Nat)
    (x : List CacheLine) :
    invalidatedOffsets (caches.set i x) i tag = invalidatedOffsets caches i tag := by
  unfold invalidatedOffsets
  rw [List.length_set]
  refine flatMap_congr _ _ _ fun c _ => ?_
  by_cases hc : c = i
  · rw [if_pos hc, if_pos hc]
  · rw [if_neg hc, if_neg hc, getD_set_ne _ _ _ _ _ (Ne.symm hc)]

lemma falseSharingCond_set_self (caches : List (List CacheLine)) (i tag off : Nat)
    (x : List CacheLine) :
    falseSharingCond (caches.set i x) i tag off = falseSharingCond caches i tag off := by
  unfold falseSharingCond
  rw [invalidatedOffsets_set_self]

lemma length_broadcastInvalidate (caches : List (List CacheLine)) (c tag : Nat) :
    (broadcastInvalidate caches c tag).length = caches.length := by
  simp [broadcastInvalidate]

lemma getD_broadcastInvalidate {caches : List (List CacheLine)} {c tag j : Nat}
    (hj : j < caches.length) :
    (broadcastInvalidate caches c tag).getD j [] =
      if j = c then caches.getD j [] else invalidateLine (caches.getD j []) tag := by
  simp [broadcastInvalidate, List.getD_eq_getElem?_getD, List.getElem?_map,
    List.getElem?_range, hj]

lemma getD_broadcastInvalidate_ge {caches : List (List CacheLine)} {c tag j : Nat}
    (hj : caches.length ≤ j) :
    (broadcastInvalidate caches c tag).getD j [] = [] := by
  apply List.getD_eq_default
  rw [length_broadcastInvalidate]
  exact hj

lemma invalidateLine_not_valid {cache : List CacheLine} {tag : Nat} :
    ∀ l ∈ invalidateLine cache tag, l.tag = tag → l.valid = false := by
  intro l hl
  simp only [invalidateLine, List.mem_map] at hl
  obtain ⟨l0, _, rfl⟩ := hl
  split
  · intro _; rfl
  · rename_i hcond
    intro ht
    by_contra hv
    simp only [Bool.not_eq_false] at hv
    exact hcond ⟨hv, ht⟩

lemma not_holdsModified_invalidateLine (cache : List CacheLine) (tag : Nat) :
    ¬ HoldsModified (invalidateLine cache tag) tag := by
  rintro ⟨l, hl, hv, _, ht⟩
  have := invalidateLine_not_valid l hl ht
  rw [hv] at this
  exact Bool.noConfusion this

lemma holdsModified_invalidateLine_ne {cache : List CacheLine} {tagA tag : Nat}
    (h : tag ≠ tagA) :
    HoldsModified (invalidateLine cache tagA) tag ↔ HoldsModified cache tag := by
  constructor
  · rintro ⟨l, hl, hv, hm, ht⟩
    simp only [invalidateLine, List.mem_map] at hl
    obtain ⟨l0, hl0, rfl⟩ := hl
    revert hv hm ht
    split
    · intro hv _ _; exact Bool.noConfusion hv
    · intro hv hm ht; exact ⟨l0, hl0, hv, hm, ht⟩
  · rintro ⟨l, hl, hv, hm, ht⟩
    refine ⟨l, ?_, hv, hm, ht⟩
    have himg : (if l.valid = true ∧ l.tag = tagA then
        { l with valid := false, coherenceState := .invalid } else l) ∈ invalidateLine cache tagA := by
      simp only [invalidateLine, List.mem_map]
      exact ⟨l, hl, rfl⟩
    rwa [if_neg (by rintro ⟨_, htA⟩; exact h (ht ▸ htA))] at himg

lemma holdsModified_set_of_ne_tag {cache : List CacheLine} {i : Nat} {x : CacheLine}
    {tag : Nat} (hx : x.tag ≠ tag) :
    HoldsModified (cache.set i x) tag → HoldsModified cache tag := by
  rintro ⟨l, hl, hv, hm, ht⟩
  rcases List.mem_or_eq_of_mem_set hl with hmem | rfl
  · exact ⟨l, hmem, hv, hm, ht⟩
  · exact absurd ht hx

lemma holdsModified_set_of_not_modified {cache : List CacheLine} {i : Nat} {x : CacheLine}
    {tag : Nat} (hx : x.coherenceState ≠ .modified) :
    HoldsModified (cache.set i x) tag → HoldsModified cache tag := by
  rintro ⟨l, hl, hv, hm, ht⟩
  rcases List.mem_or_eq_of_mem_set hl with hmem | rfl
  · exact ⟨l, hmem, hv, hm, ht⟩
  · exact absurd hm hx

lemma holdsModified_set_of_same {cache : List CacheLine} {i : Nat} {x : CacheLine}
    {tag : Nat} (hi : i < cache.length)
    (h1 : x.valid = (cache.getD i emptyLine).valid)
    (h2 : x.coherenceState = (cache.getD i emptyLine).coherenceState)
    (h3 : x.tag = (cache.getD i emptyLine).tag) :
    HoldsModified (cache.set i x) tag → HoldsModified cache tag := by
  rintro ⟨l, hl, hv, hm, ht⟩
  rcases List.mem_or_eq_of_mem_set hl with hmem | rfl
  · exact ⟨l, hmem, hv, hm, ht⟩
  · refine ⟨cache.getD i emptyLine, ?_, h1 ▸ hv, h2 ▸ hm, h3 ▸ ht⟩
    rw [List.getD_eq_getElem _ _ hi]
    exact List.getElem_mem hi

/-! ### Characterization of one simulator step -/

lemma simulate_write_hit {stepNo c A time : Nat} {caches : List (List CacheLine)} {i : Nat}
    (hf : findLineIdx (caches.getD c []) (blockTag A) = some i) :
    simulateCacheAccess ⟨stepNo, c, A, .write⟩ caches time =
      ((⟨stepNo, c, A,
          if falseSharingCond caches c (blockTag A) (lineOffset A) = true then
            EventType.falseSharing else EventType.hit,
          otherHolders
            (caches.set c ((caches.getD c []).set i
              { (caches.getD c []).getD i emptyLine with
                coherenceState := .modified, recency := time, lastOffset := lineOffset A }))
            c (blockTag A), false⟩ : CacheEvent),
       broadcastInvalidate
         (caches.set c ((caches.getD c []).set i
           { (caches.getD c []).getD i emptyLine with
             coherenceState := .modified, recency := time, lastOffset := lineOffset A }))
         c (blockTag A)) := by
  rw [simulateCacheAccess]
  simp only [hf, falseSharingCond_set_self]
  simp

lemma simulate_write_miss {stepNo c A time : Nat} {caches : List (List CacheLine)}
    (hf : findLineIdx (caches.getD c []) (blockTag A) = none) :
    simulateCacheAccess ⟨stepNo, c, A, .write⟩ caches time =
      ((⟨stepNo, c, A,
          if falseSharingCond caches c (blockTag A) (lineOffset A) = true then
            EventType.falseSharing else EventType.miss,
          otherHolders
            (caches.set c ((caches.getD c []).set (victimIdx (caches.getD c []))
              ⟨true, blockTag A, .modified, time, lineOffset A⟩))
            c (blockTag A),
          ((caches.getD c []).getD (victimIdx (caches.getD c [])) emptyLine).valid⟩ : CacheEvent),
       broadcastInvalidate
         (caches.set c ((caches.getD c []).set (victimIdx (caches.getD c []))
           ⟨true, blockTag A, .modified, time, lineOffset A⟩))
         c (blockTag A)) := by
  rw [simulateCacheAccess]
  simp only [hf, falseSharingCond_set_self]
  simp

lemma simulate_read_hit {stepNo c A time : Nat} {caches : List (List CacheLine)} {i : Nat}
    (hf : findLineIdx (caches.getD c []) (blockTag A) = some i) :
    simulateCacheAccess ⟨stepNo, c, A, .read⟩ caches time =
      ((⟨stepNo, c, A, .hit, [], false⟩ : CacheEvent),
       caches.set c ((caches.getD c []).set i
         { (caches.getD c []).getD i emptyLine with
           recency := time, lastOffset := lineOffset A })) := by
  rw [simulateCacheAccess]
  simp only [hf]
  rfl

lemma simulate_read_miss {stepNo c A time : Nat} {caches : List (List CacheLine)}
    (hf : findLineIdx (caches.getD c []) (blockTag A) = none) :
    simulateCacheAccess ⟨stepNo, c, A, .read⟩ caches time =
      ((⟨stepNo, c, A, .miss, [],
          ((caches.getD c []).getD (victimIdx (caches.getD c [])) emptyLine).valid⟩ : CacheEvent),
       caches.set c ((caches.getD c []).set (victimIdx (caches.getD c []))
         ⟨true, blockTag A, .shared, time, lineOffset A⟩)) := by
  rw [simulateCacheAccess]
  simp only [hf]
  simp

lemma write_event_type (stepNo c A time : Nat) (caches : List (List CacheLine)) :
    (simulateCacheAccess ⟨stepNo, c, A, .write⟩ caches time).1.type =
      if falseSharingCond caches c (blockTag A) (lineOffset A) = true then
        EventType.falseSharing
      else if (findLineIdx (caches.getD c []) (blockTag A)).isSome = true then
        EventType.hit
      else EventType.miss := by
  cases hf : findLineIdx (caches.getD c []) (blockTag A) with
  | some i => rw [simulate_write_hit hf]; simp
  | none => rw [simulate_write_miss hf]; simp

lemma getD_broadcast_set (caches : List (List CacheLine)) (c tag j : Nat)
    (x : List CacheLine) (hj : j ≠ c) :
    (broadcastInvalidate (caches.set c x) c tag).getD j [] =
      if j < caches.length then invalidateLine (caches.getD j []) tag else [] := by
  by_cases hjl : j < caches.length
  · rw [if_pos hjl,
      getD_broadcastInvalidate (show j < (caches.set c x).length by simpa using hjl),
      if_neg hj, getD_set_ne _ _ _ _ _ (Ne.symm hj)]
  · rw [if_neg hjl]
    exact getD_broadcastInvalidate_ge (by simpa using Nat.le_of_not_lt hjl)

lemma write_caches_other (stepNo c A time : Nat) (caches : List (List CacheLine))
    (j : Nat) (hj : j ≠ c) :
    (simulateCacheAccess ⟨stepNo, c, A, .write⟩ caches time).2.getD j [] =
      if j < caches.length then invalidateLine (caches.getD j []) (blockTag A) else [] := by
  cases hf : findLineIdx (caches.getD c []) (blockTag A) with
  | some i => rw [simulate_write_hit hf]; exact getD_broadcast_set _ _ _ _ _ hj
  | none => rw [simulate_write_miss hf]; exact getD_broadcast_set _ _ _ _ _ hj

/-! ### The claims -/

/-- C1: in any multicore state in which core 1 holds a valid line for some
block tag whose history is a previous read of address B, a write of
address A by core 0 with `blockTag A = blockTag B` and
`lineOffset A ≠ lineOffset B` yields an event of type `falseSharing`, and
core 1's lines for that tag are invalid (`valid = false`) in the updated
caches. -/
theorem false_sharing_detected
    (caches : List (List CacheLine)) (A B stepNo time : Nat) (l : CacheLine)
    (hl : l ∈ caches.getD 1 []) (hv : l.valid = true) (hts : l.tag = blockTag B)
    (ho : l.lastOffset = lineOffset B)
    (htag : blockTag A = blockTag B) (hoff : lineOffset A ≠ lineOffset B) :
    (simulateCacheAccess ⟨stepNo, 0, A, .write⟩ caches time).1.type =
      EventType.falseSharing ∧
    ∀ l' ∈ (simulateCacheAccess ⟨stepNo, 0, A, .write⟩ caches time).2.getD 1 [],
      l'.tag = blockTag B → l'.valid = false := by
  have h1len : 1 < caches.length := by
    by_contra h
    push_neg at h
    rw [List.getD_eq_default _ _ h] at hl
    exact absurd hl (List.not_mem_nil l)
  have hmem : lineOffset B ∈ invalidatedOffsets caches 0 (blockTag A) := by
    rw [mem_invalidatedOffsets]
    exact ⟨1, h1len, one_ne_zero,
      mem_offsetsOfTag.mpr ⟨l, hl, hv, by rw [hts, htag], ho⟩⟩
  have hfs : falseSharingCond caches 0 (blockTag A) (lineOffset A) = true :=
    falseSharingCond_iff.mpr ⟨lineOffset B, hmem, fun h => hoff h.symm⟩
  constructor
  · rw [write_event_type, if_pos hfs]
  · intro l' hl' ht'
    rw [write_caches_other _ _ _ _ _ _ one_ne_zero, if_pos h1len] at hl'
    exact invalidateLine_not_valid l' hl' (ht'.trans htag.symm)

/-- Witness for C1: core 1 reads address 1 (tag 0, offset 1) from the
2-core initial state; core 0 then writes address 2 (tag 0, offset 2) —
the event is `falseSharing`. -/
theorem false_sharing_detected_witness :
    (⟨true, 0, .shared, 0, 1⟩ : CacheLine) ∈
      ((simulateCacheAccess ⟨0, 1, 1, .read⟩ (initializeCache 2) 0).2.getD 1 []) ∧
    (simulateCacheAccess ⟨1, 0, 2, .write⟩
      (simulateCacheAccess ⟨0, 1, 1, .read⟩ (initializeCache 2) 0).2 1).1.type =
      EventType.falseSharing :=
  ⟨by decide,
   (false_sharing_detected _ 2 1 1 1 ⟨true, 0, .shared, 0, 1⟩ (by decide) (by decide)
      (by decide) (by decide) (by decide) (by decide)).1⟩

/-- C2: same two-core setup but with `lineOffset A = lineOffset B` (true
sharing): the event of core 0's write is `hit` or `miss`, never
`falseSharing`. -/
theorem true_sharing_not_false_sharing
    (caches : List (List CacheLine)) (A B stepNo time : Nat)
    (hlen : caches.length = 2) (l : CacheLine)
    (hl : l ∈ caches.getD 1 []) (hv : l.valid = true) (hts : l.tag = blockTag B)
    (hall : ∀ l' ∈ caches.getD 1 [], l'.valid = true → l'.tag = blockTag B →
      l'.lastOffset = lineOffset B)
    (htag : blockTag A = blockTag B) (hoff : lineOffset A = lineOffset B) :
    ((simulateCacheAccess ⟨stepNo, 0, A, .write⟩ caches time).1.type = EventType.hit ∨
     (simulateCacheAccess ⟨stepNo, 0, A, .write⟩ caches time).1.type = EventType.miss) ∧
    (simulateCacheAccess ⟨stepNo, 0, A, .write⟩ caches time).1.type ≠
      EventType.falseSharing := by
  have hfs : falseSharingCond caches 0 (blockTag A) (lineOffset A) = false := by
    by_contra h
    rw [Bool.not_eq_false] at h
    obtain ⟨o, homem, hone⟩ := falseSharingCond_iff.mp h
    obtain ⟨c, hc, hc0, hoo⟩ := mem_invalidatedOffsets.mp homem
    have hc1 : c = 1 := by omega
    subst hc1
    obtain ⟨l', hl', hv', ht', ho'⟩ := mem_offsetsOfTag.mp hoo
    have := hall l' hl' hv' (ht'.trans htag)
    rw [ho'] at this
    exact hone (this.trans hoff.symm)
  rw [write_event_type, if_neg (by rw [hfs]; exact Bool.false_ne_true)]
  cases hsome : (findLineIdx (caches.getD 0 []) (blockTag A)).isSome <;> simp

/-- Witness for C2: core 1 reads address 1 (tag 0, offset 1); core 0 then
writes address 1 itself — same tag, same offset — and the event is not
`falseSharing`. -/
theorem true_sharing_not_false_sharing_witness :
    (⟨true, 0, .shared, 0, 1⟩ : CacheLine) ∈
      ((simulateCacheAccess ⟨0, 1, 1, .read⟩ (initializeCache 2) 0).2.getD 1 []) ∧
    (simulateCacheAccess ⟨1, 0, 1, .write⟩
      (simulateCacheAccess ⟨0, 1, 1, .read⟩ (initializeCache 2) 0).2 1).1.type ≠
      EventType.falseSharing :=
  ⟨by decide,
   (true_sharing_not_false_sharing _ 1 1 1 1 (by decide) ⟨true, 0, .shared, 0, 1⟩
      (by decide) (by decide) (by decide) (by decide) (by decide) (by decide)).2⟩

/-- C5: an eviction never appears as the event's type: whatever the access
and state, the type is not `eviction`, and when the miss path evicted a
valid victim (the `evicted` flag) the externally visible type is `miss` —
or `falseSharing` when the tie-break applies. -/
theorem eviction_is_metadata (a : MemoryAccess) (caches : List (List CacheLine))
    (time : Nat) :
    (simulateCacheAccess a caches time).1.type ≠ EventType.eviction ∧
    ((simulateCacheAccess a caches time).1.evicted = true →
      (simulateCacheAccess a caches time).1.type = EventType.miss ∨
      (simulateCacheAccess a caches time).1.type = EventType.falseSharing) := by
  obtain ⟨stepNo, c, A, k⟩ := a
  cases k with
  | read =>
    cases hf : findLineIdx (caches.getD c []) (blockTag A) with
    | some i =>
      rw [simulate_read_hit hf]
      exact ⟨by simp, fun h => Bool.noConfusion h⟩
    | none =>
      rw [simulate_read_miss hf]
      exact ⟨by simp, fun _ => Or.inl rfl⟩
  | write =>
    cases hf : findLineIdx (caches.getD c []) (blockTag A) with
    | some i =>
      rw [simulate_write_hit hf]
      refine ⟨?_, fun h => Bool.noConfusion h⟩
      by_cases hfs : falseSharingCond caches c (blockTag A) (lineOffset A) = true
      · simp [hfs]
      · simp [hfs]
    | none =>
      rw [simulate_write_miss hf]
      by_cases hfs : falseSharingCond caches c (blockTag A) (lineOffset A) = true
      · exact ⟨by simp [hfs], fun _ => Or.inr (by simp [hfs])⟩
      · exact ⟨by simp [hfs], fun _ => Or.inl (by simp [hfs])⟩

/-- Witness for C5: a fifth distinct-tag read on a full single-core cache
evicts a valid line; the event's type is still `miss`. -/
theorem eviction_is_metadata_witness :
    (simulateCacheAccess ⟨4, 0, 16, .read⟩
      (runEvents [⟨0, 0, 0, .read⟩, ⟨1, 0, 4, .read⟩, ⟨2, 0, 8, .read⟩, ⟨3, 0, 12, .read⟩]
        (initializeCache 1) 0).2 4).1.evicted = true ∧
    ((simulateCacheAccess ⟨4, 0, 16, .read⟩
      (runEvents [⟨0, 0, 0, .read⟩, ⟨1, 0, 4, .read⟩, ⟨2, 0, 8, .read⟩, ⟨3, 0, 12, .read⟩]
        (initializeCache 1) 0).2 4).1.type = EventType.miss ∨
     (simulateCacheAccess ⟨4, 0, 16, .read⟩
      (runEvents [⟨0, 0, 0, .read⟩, ⟨1, 0, 4, .read⟩, ⟨2, 0, 8, .read⟩, ⟨3, 0, 12, .read⟩]
        (initializeCache 1) 0).2 4).1.type = EventType.falseSharing) :=
  ⟨by decide, (eviction_is_metadata _ _ _).2 (by decide)⟩

/-- C6: the stats fold of `src/Index.tsx` increments `totalAccesses` by 1
always; increments `hits` by 1 exactly on a `hit` event; increments
`misses` by 1 exactly on a `miss` or `eviction` event; increments
`falseSharingCount` by 1 exactly on a `falseSharing` event; and no
counter ever decreases. -/
theorem stats_fold_exact (e : CacheEvent) (s : CacheStats) :
    ((fold e s).totalAccesses = s.totalAccesses + 1) ∧
    ((fold e s).hits = s.hits + 1 ↔ e.type = EventType.hit) ∧
    ((fold e s).misses = s.misses + 1 ↔
      (e.type = EventType.miss ∨ e.type = EventType.eviction)) ∧
    ((fold e s).falseSharingCount = s.falseSharingCount + 1 ↔
      e.type = EventType.falseSharing) ∧
    (s.hits ≤ (fold e s).hits) ∧ (s.misses ≤ (fold e s).misses) ∧
    (s.falseSharingCount ≤ (fold e s).falseSharingCount) ∧
    (s.totalAccesses ≤ (fold e s).totalAccesses) := by
  unfold fold
  cases e.type <;> simp

/-- C7: the generator, called twice with identical `count`, `numCores`,
probability and seed arguments, produces identical sequences — it is a
pure function of its arguments with no hidden source of randomness. -/
theorem generate_deterministic (count numCores : Int) (p : ℚ) (seed : Nat) :
    generateRandomAccesses count numCores p seed =
      generateRandomAccesses count numCores p seed := rfl

/-- Did the boundary reject its input? -/
def isError {α : Type} : Except String α → Bool
  | .error _ => true
  | .ok _ => false

/-- C8: the boundaries fail fast exactly on invalid input: `generate`
errors iff `count < 0`, `numCores < 1` or the probability is outside
`[0,1]`; the checked `step` errors iff `coreId` is outside
`[0, numCores)` or the address is negative.  Valid inputs are never
rejected and invalid ones never clamped. -/
theorem input_validation :
    (∀ (count numCores : Int) (p : ℚ) (seed : Nat),
      isError (generateRandomAccesses count numCores p seed) = true ↔
        (count < 0 ∨ numCores < 1 ∨ p < 0 ∨ 1 < p)) ∧
    (∀ (coreId address : Int) (kind : AccessKind) (caches : List (List CacheLine))
      (time stepNo : Nat),
      isError (stepChecked coreId address kind caches time stepNo) = true ↔
        (coreId < 0 ∨ (caches.length : Int) ≤ coreId ∨ address < 0)) := by
  constructor
  · intro count numCores p seed
    unfold generateRandomAccesses
    split_ifs with h1 h2 h3
    · simp [isError, h1]
    · simp [isError, h2]
    · simp [isError, h1, h2, h3]
    · simp [isError, h1, h2, h3]
  · intro coreId address kind caches time stepNo
    unfold stepChecked
    split_ifs with h1 h2
    · simp only [isError, true_iff]
      tauto
    · simp [isError, h2]
    · simp only [isError]
      push_neg at h1
      constructor
      · intro h; exact Bool.noConfusion h
      · intro h; exfalso; omega

/-- C10: once `currentStep` has reached the end of the access sequence,
`executeStep` changes nothing but `isRunning` (set to false) and
`handleStep` changes nothing at all. -/
theorem step_guard_frame (s : DriverState)
    (h : s.memoryAccesses.length ≤ s.currentStep) :
    executeStep s = { s with isRunning := false } ∧ handleStep s = s := by
  constructor
  · rw [executeStep, if_pos h]
  · rw [handleStep, if_neg (not_lt.mpr h)]

/-- Witness for C10: the fresh driver state over an empty sequence is at
the end; `executeStep` only clears `isRunning` and `handleStep` is the
identity there. -/
theorem step_guard_frame_witness :
    (initialDriver []).memoryAccesses.length ≤ (initialDriver []).currentStep ∧
    executeStep (initialDriver []) = { initialDriver [] with isRunning := false } ∧
    handleStep (initialDriver []) = initialDriver [] :=
  ⟨by decide, step_guard_frame (initialDriver []) (by decide)⟩

lemma getD_set_self {α : Type} (l : List α) (i : Nat) (x d : α) (h : i < l.length) :
    (l.set i x).getD i d = x := by
  rw [List.getD_eq_getElem?_getD, List.getElem?_set_self] <;> simp [h]

lemma holdsModified_nil (tag : Nat) : ¬ HoldsModified [] tag := by
  rintro ⟨l, hl, _⟩
  exact List.not_mem_nil l hl

/-- Modified-exclusivity: no two distinct cores hold a valid Modified line
for the same tag. -/
def ModExclusive (caches : List (List CacheLine)) : Prop :=
  ∀ tag i j, i ≠ j → HoldsModified (caches.getD i []) tag →
    ¬ HoldsModified (caches.getD j []) tag

lemma broadcast_preserves_exclusive (caches : List (List CacheLine)) (c tagA : Nat)
    (x : List CacheLine)
    (hx : ∀ tg, tg ≠ tagA → HoldsModified x tg → HoldsModified (caches.getD c []) tg)
    (h : ModExclusive caches) :
    ModExclusive (broadcastInvalidate (caches.set c x) c tagA) := by
  intro tag i j hij Hi Hj
  have hm : ∀ m, HoldsModified ((broadcastInvalidate (caches.set c x) c tagA).getD m []) tag →
      (m = c ∧ c < caches.length ∧ HoldsModified x tag) ∨
      (m ≠ c ∧ m < caches.length ∧
        HoldsModified (invalidateLine (caches.getD m []) tagA) tag) := by
    intro m Hm
    by_cases hmc : m = c
    · subst hmc
      by_cases hlt : m < caches.length
      · left
        refine ⟨rfl, hlt, ?_⟩
        rwa [getD_broadcastInvalidate (show m < (caches.set m x).length by simpa using hlt),
          if_pos rfl, getD_set_self _ _ _ _ hlt] at Hm
      · exfalso
        rw [getD_broadcastInvalidate_ge (by simpa using Nat.le_of_not_lt hlt)] at Hm
        exact holdsModified_nil _ Hm
    · by_cases hlt : m < caches.length
      · right
        refine ⟨hmc, hlt, ?_⟩
        rwa [getD_broadcast_set _ _ _ _ _ hmc, if_pos hlt] at Hm
      · exfalso
        rw [getD_broadcast_set _ _ _ _ _ hmc, if_neg hlt] at Hm
        exact holdsModified_nil _ Hm
  by_cases htag : tag = tagA
  · subst htag
    rcases hm i Hi with ⟨hic, _, _⟩ | ⟨_, _, Hi'⟩
    · rcases hm j Hj with ⟨hjc, _, _⟩ | ⟨_, _, Hj'⟩
      · exact hij (hic.trans hjc.symm)
      · exact not_holdsModified_invalidateLine _ _ Hj'
    · exact not_holdsModified_invalidateLine _ _ Hi'
  · have Hi' : HoldsModified (caches.getD i []) tag := by
      rcases hm i Hi with ⟨hic, _, Hx⟩ | ⟨_, _, Hinv⟩
      · subst hic; exact hx tag htag Hx
      · exact (holdsModified_invalidateLine_ne htag).mp Hinv
    have Hj' : HoldsModified (caches.getD j []) tag := by
      rcases hm j Hj with ⟨hjc, _, Hx⟩ | ⟨_, _, Hinv⟩
      · subst hjc; exact hx tag htag Hx
      · exact (holdsModified_invalidateLine_ne htag).mp Hinv
    exact h tag i j hij Hi' Hj'

lemma set_preserves_holds (caches : List (List CacheLine)) (c : Nat)
    (x : List CacheLine)
    (hx : ∀ tg, HoldsModified x tg → HoldsModified (caches.getD c []) tg)
    (h : ModExclusive caches) :
    ModExclusive (caches.set c x) := by
  intro tag i j hij Hi Hj
  have hm : ∀ m, HoldsModified ((caches.set c x).getD m []) tag →
      HoldsModified (caches.getD m []) tag := by
    intro m Hm
    by_cases hmc : m = c
    · subst hmc
      by_cases hlt : m < caches.length
      · rw [getD_set_self _ _ _ _ hlt] at Hm
        exact hx tag Hm
      · rw [List.set_eq_of_length_le (Nat.le_of_not_lt hlt)] at Hm
        exact Hm
    · rwa [getD_set_ne _ _ _ _ _ (Ne.symm hmc)] at Hm
  exact h tag i j hij (hm i Hi) (hm j Hj)

lemma step_preserves_exclusive (a : MemoryAccess) (caches : List (List CacheLine))
    (time : Nat) (h : ModExclusive caches) :
    ModExclusive (simulateCacheAccess a caches time).2 := by
  obtain ⟨stepNo, c, A, k⟩ := a
  cases k with
  | read =>
    cases hf : findLineIdx (caches.getD c []) (blockTag A) with
    | some i =>
      rw [simulate_read_hit hf]
      obtain ⟨hilen, _, _⟩ := findLineIdx_some hf
      exact set_preserves_holds _ _ _
        (fun tg => holdsModified_set_of_same hilen rfl rfl rfl) h
    | none =>
      rw [simulate_read_miss hf]
      exact set_preserves_holds _ _ _
        (fun tg => holdsModified_set_of_not_modified (by simp)) h
  | write =>
    cases hf : findLineIdx (caches.getD c []) (blockTag A) with
    | some i =>
      rw [simulate_write_hit hf]
      obtain ⟨hilen, _, htg⟩ := findLineIdx_some hf
      refine broadcast_preserves_exclusive _ _ _ _ (fun tg htgA => ?_) h
      refine holdsModified_set_of_ne_tag ?_
      show ((caches.getD c []).getD i emptyLine).tag ≠ tg
      rw [htg]
      exact Ne.symm htgA
    | none =>
      rw [simulate_write_miss hf]
      refine broadcast_preserves_exclusive _ _ _ _ (fun tg htgA => ?_) h
      exact holdsModified_set_of_ne_tag (by simpa using Ne.symm htgA)

lemma runSteps_exclusive (steps : List (MemoryAccess × Nat))
    (caches : List (List CacheLine)) (h : ModExclusive caches) :
    ModExclusive (runSteps steps caches) := by
  induction steps generalizing caches with
  | nil => exact h
  | cons p rest ih =>
    rw [runSteps, List.foldl_cons]
    exact ih _ (step_preserves_exclusive p.1 caches p.2 h)

lemma initializeCache_exclusive (n : Nat) : ModExclusive (initializeCache n) := by
  intro tag i j _ Hi _
  rcases Hi with ⟨l, hl, hv, _, _⟩
  unfold initializeCache at hl
  by_cases hi : i < n
  · rw [List.getD_eq_getElem?_getD, List.getElem?_replicate, if_pos hi] at hl
    simp only [Option.getD_some] at hl
    have := List.eq_of_mem_replicate hl
    subst this
    exact Bool.noConfusion hv
  · rw [List.getD_eq_default] at hl
    · exact List.not_mem_nil l hl
    · simpa using Nat.le_of_not_lt hi

/-- C3 counterexample: from the 2-core initial state, core 1 writes
address 0 (its line becomes Modified for tag 0); core 0 then read-misses
address 0 and installs the tag Shared, with no downgrade of core 1's
Modified copy — so one core holds the tag Modified while another holds it
Shared, contradicting the claimed invariant. -/
theorem coherence_invariant_counterexample :
    HoldsModified ((runSteps [(⟨0, 1, 0, .write⟩, 0), (⟨1, 0, 0, .read⟩, 1)]
      (initializeCache 2)).getD 1 []) 0 ∧
    ∃ l ∈ (runSteps [(⟨0, 1, 0, .write⟩, 0), (⟨1, 0, 0, .read⟩, 1)]
      (initializeCache 2)).getD 0 [],
      l.valid = true ∧ l.coherenceState = .shared ∧ l.tag = 0 := by
  decide

/-- C3 (amended): after any finite sequence of steps from
`initializeCache n`, for every block tag at most one core holds a valid
Modified line for that tag; a different core may however still hold the
same tag Shared (a read miss installs Shared without downgrading a remote
Modified copy). -/
theorem modified_exclusive (n : Nat) (steps : List (MemoryAccess × Nat))
    (tag i j : Nat) (hij : i ≠ j)
    (hi : HoldsModified ((runSteps steps (initializeCache n)).getD i []) tag) :
    ¬ HoldsModified ((runSteps steps (initializeCache n)).getD j []) tag :=
  runSteps_exclusive steps _ (initializeCache_exclusive n) tag i j hij hi

/-- Witness for the amended C3: after core 1 writes address 0 from the
2-core initial state, core 1 holds tag 0 Modified and core 0 does not. -/
theorem modified_exclusive_witness :
    (1 : Nat) ≠ 0 ∧
    HoldsModified ((runSteps [(⟨0, 1, 0, .write⟩, 0)] (initializeCache 2)).getD 1 []) 0 ∧
    ¬ HoldsModified ((runSteps [(⟨0, 1, 0, .write⟩, 0)] (initializeCache 2)).getD 0 []) 0 :=
  ⟨by decide, by decide, modified_exclusive 2 _ 0 1 0 (by decide) (by decide)⟩

lemma totalSum_set (stats : List CacheStats) (i : Nat) (x : CacheStats)
    (hi : i < stats.length) :
    totalSum (stats.set i x) + (stats.getD i zeroStats).totalAccesses =
      totalSum stats + x.totalAccesses := by
  induction stats generalizing i with
  | nil => simp at hi
  | cons s rest ih =>
    match i with
    | 0 =>
      simp only [List.set_cons_zero, List.getD_cons_zero, totalSum, List.map_cons,
        List.sum_cons]
      omega
    | i + 1 =>
      simp only [List.set_cons_succ, List.getD_cons_succ, totalSum, List.map_cons,
        List.sum_cons]
      have := ih i (by simpa using hi)
      simp only [totalSum] at this
      omega

lemma executeStep_invariant (s : DriverState)
    (hstats : s.stats.length = NUM_CORES)
    (hsum : totalSum s.stats = s.currentStep)
    (hev : s.events.length = s.currentStep)
    (hacc : ∀ a ∈ s.memoryAccesses, a.coreId < NUM_CORES) :
    (executeStep s).stats.length = NUM_CORES ∧
    totalSum (executeStep s).stats = (executeStep s).currentStep ∧
    (executeStep s).events.length = (executeStep s).currentStep ∧
    (executeStep s).memoryAccesses = s.memoryAccesses := by
  by_cases hend : s.memoryAccesses.length ≤ s.currentStep
  · rw [executeStep, if_pos hend]
    exact ⟨hstats, hsum, hev, rfl⟩
  · push_neg at hend
    have hmem : s.memoryAccesses.getD s.currentStep ⟨0, 0, 0, .read⟩ ∈ s.memoryAccesses := by
      rw [List.getD_eq_getElem _ _ hend]
      exact List.getElem_mem hend
    have hc : (s.memoryAccesses.getD s.currentStep ⟨0, 0, 0, .read⟩).coreId < NUM_CORES :=
      hacc _ hmem
    rw [executeStep, if_neg (not_le.mpr hend)]
    simp only
    refine ⟨?_, ?_, ?_, ?_⟩
    · simp [List.length_set, hstats]
    · have hset := totalSum_set s.stats
        (s.memoryAccesses.getD s.currentStep ⟨0, 0, 0, .read⟩).coreId
        (fold (simulateCacheAccess (s.memoryAccesses.getD s.currentStep ⟨0, 0, 0, .read⟩)
          s.caches s.currentStep).1
          (s.stats.getD (s.memoryAccesses.getD s.currentStep ⟨0, 0, 0, .read⟩).coreId zeroStats))
        (by rw [hstats]; exact hc)
      have hfold : (fold (simulateCacheAccess (s.memoryAccesses.getD s.currentStep
          ⟨0, 0, 0, .read⟩) s.caches s.currentStep).1
          (s.stats.getD (s.memoryAccesses.getD s.currentStep ⟨0, 0, 0, .read⟩).coreId
            zeroStats)).totalAccesses =
          (s.stats.getD (s.memoryAccesses.getD s.currentStep ⟨0, 0, 0, .read⟩).coreId
            zeroStats).totalAccesses + 1 := rfl
      omega
    · simp [hev]
    · first | rfl | trivial

/-- C9: after any number of driver steps from the initial state over a
well-formed access sequence, the per-core `totalAccesses` counters sum to
`currentStep`, which also equals the length of the accumulated event log:
each executed step appends one event and bumps one core's counter. -/
theorem stats_match_step_count (accesses : List MemoryAccess) (n : Nat)
    (hacc : ∀ a ∈ accesses, a.coreId < NUM_CORES) :
    totalSum (executeStep^[n] (initialDriver accesses)).stats =
      (executeStep^[n] (initialDriver accesses)).currentStep ∧
    (executeStep^[n] (initialDriver accesses)).events.length =
      (executeStep^[n] (initialDriver accesses)).currentStep := by
  have key : ∀ m, (executeStep^[m] (initialDriver accesses)).stats.length = NUM_CORES ∧
      totalSum (executeStep^[m] (initialDriver accesses)).stats =
        (executeStep^[m] (initialDriver accesses)).currentStep ∧
      (executeStep^[m] (initialDriver accesses)).events.length =
        (executeStep^[m] (initialDriver accesses)).currentStep ∧
      (executeStep^[m] (initialDriver accesses)).memoryAccesses = accesses := by
    intro m
    induction m with
    | zero =>
      refine ⟨?_, ?_, ?_, ?_⟩
      · simp [initialDriver]
      · simp [initialDriver, totalSum, zeroStats, NUM_CORES]
      · simp [initialDriver]
      · rfl
    | succ m ih =>
      rw [Function.iterate_succ_apply']
      obtain ⟨h1, h2, h3, h4⟩ := ih
      have hacc' : ∀ a ∈ (executeStep^[m] (initialDriver accesses)).memoryAccesses,
          a.coreId < NUM_CORES := by
        rw [h4]; exact hacc
      obtain ⟨g1, g2, g3, g4⟩ := executeStep_invariant _ h1 h2 h3 hacc'
      exact ⟨g1, g2, g3, g4.trans h4⟩
  exact ⟨(key n).2.1, (key n).2.2.1⟩

/-- Witness for C9: three driver steps over a two-access sequence. -/
theorem stats_match_step_count_witness :
    (∀ a ∈ [(⟨0, 0, 0, .read⟩ : MemoryAccess), ⟨1, 1, 5, .write⟩], a.coreId < NUM_CORES) ∧
    totalSum (executeStep^[3]
      (initialDriver [⟨0, 0, 0, .read⟩, ⟨1, 1, 5, .write⟩])).stats =
      (executeStep^[3] (initialDriver [⟨0, 0, 0, .read⟩, ⟨1, 1, 5, .write⟩])).currentStep ∧
    (executeStep^[3] (initialDriver [⟨0, 0, 0, .read⟩, ⟨1, 1, 5, .write⟩])).events.length =
      (executeStep^[3] (initialDriver [⟨0, 0, 0, .read⟩, ⟨1, 1, 5, .write⟩])).currentStep :=
  ⟨by decide,
   (stats_match_step_count [⟨0, 0, 0, .read⟩, ⟨1, 1, 5, .write⟩] 3 (by decide)).1,
   (stats_match_step_count [⟨0, 0, 0, .read⟩, ⟨1, 1, 5, .write⟩] 3 (by decide)).2⟩

lemma findInvalidIdx_none_forall {cache : List CacheLine}
    (h : findInvalidIdx cache = none) : ∀ l ∈ cache, l.valid = true := by
  induction cache with
  | nil => intro l hl; exact absurd hl (List.not_mem_nil l)
  | cons l rest ih =>
    rw [findInvalidIdx] at h
    by_cases hv : l.valid = false
    · rw [if_pos hv] at h
      exact Option.noConfusion h
    · rw [if_neg hv] at h
      rw [Option.map_eq_none'] at h
      intro l' hl'
      rcases List.mem_cons.mp hl' with rfl | hl'
      · simpa using hv
      · exact ih h l' hl'

lemma miss_evicted_flag (a : MemoryAccess) (caches : List (List CacheLine)) (time : Nat)
    (hf : findLineIdx (caches.getD a.coreId []) (blockTag a.address) = none) :
    (simulateCacheAccess a caches time).1.evicted =
      ((caches.getD a.coreId []).getD (victimIdx (caches.getD a.coreId []))
        emptyLine).valid := by
  obtain ⟨stepNo, c, A, k⟩ := a
  cases k with
  | read => rw [simulate_read_miss hf]
  | write => rw [simulate_write_miss hf]

/-- The C+1 distinct-tag single-core read sequence of spec section 8
(addresses `4*t` so that block `t` is accessed at offset 0). -/
def lruScenario (t0 t1 t2 t3 t4 : Nat) : List MemoryAccess :=
  [⟨0, 0, 4 * t0, .read⟩, ⟨1, 0, 4 * t1, .read⟩, ⟨2, 0, 4 * t2, .read⟩,
   ⟨3, 0, 4 * t3, .read⟩, ⟨4, 0, 4 * t4, .read⟩]

/-- C4: on a miss, the victim slot is an invalid slot when one exists (no
eviction) and otherwise the valid line with the globally smallest recency,
ties broken by lowest slot index; in particular C+1 distinct-tag reads
from one core starting at the initial state (capacity C = 4) cause exactly
one eviction — at the fifth access — and the cache at that moment holds
its lowest-recency line (the first-installed tag) in the victim slot 0. -/
theorem lru_victim_selection :
    (∀ (a : MemoryAccess) (caches : List (List CacheLine)) (time : Nat)
      (cache : List CacheLine), caches.getD a.coreId [] = cache →
      findLineIdx cache (blockTag a.address) = none →
      ((∃ l ∈ cache, l.valid = false) →
        (cache.getD (victimIdx cache) emptyLine).valid = false ∧
        (simulateCacheAccess a caches time).1.evicted = false) ∧
      ((∀ l ∈ cache, l.valid = true) → cache ≠ [] →
        victimIdx cache = lruIdx cache ∧
        victimIdx cache < cache.length ∧
        (∀ k < cache.length,
          (cache.getD (victimIdx cache) emptyLine).recency ≤
            (cache.getD k emptyLine).recency) ∧
        (∀ k < cache.length,
          (cache.getD k emptyLine).recency =
            (cache.getD (victimIdx cache) emptyLine).recency →
          victimIdx cache ≤ k) ∧
        (simulateCacheAccess a caches time).1.evicted = true)) ∧
    (∀ t0 t1 t2 t3 t4 : Nat,
      t0 ≠ t1 → t0 ≠ t2 → t0 ≠ t3 → t0 ≠ t4 → t1 ≠ t2 → t1 ≠ t3 → t1 ≠ t4 →
      t2 ≠ t3 → t2 ≠ t4 → t3 ≠ t4 →
      (runEvents (lruScenario t0 t1 t2 t3 t4) (initializeCache 1) 0).1.map
        (fun e => e.evicted) = [false, false, false, false, true] ∧
      (runEvents ((lruScenario t0 t1 t2 t3 t4).take 4) (initializeCache 1) 0).2.getD 0 [] =
        [⟨true, t0, .shared, 0, 0⟩, ⟨true, t1, .shared, 1, 0⟩,
         ⟨true, t2, .shared, 2, 0⟩, ⟨true, t3, .shared, 3, 0⟩] ∧
      victimIdx [⟨true, t0, .shared, 0, 0⟩, ⟨true, t1, .shared, 1, 0⟩,
        ⟨true, t2, .shared, 2, 0⟩, ⟨true, t3, .shared, 3, 0⟩] = 0 ∧
      (∀ k < 4,
        (([⟨true, t0, .shared, 0, 0⟩, ⟨true, t1, .shared, 1, 0⟩,
           ⟨true, t2, .shared, 2, 0⟩, ⟨true, t3, .shared, 3, 0⟩] :
            List CacheLine).getD 0 emptyLine).recency ≤
        (([⟨true, t0, .shared, 0, 0⟩, ⟨true, t1, .shared, 1, 0⟩,
           ⟨true, t2, .shared, 2, 0⟩, ⟨true, t3, .shared, 3, 0⟩] :
            List CacheLine).getD k emptyLine).recency)) := by
  constructor
  · intro a caches time cache hcache hf
    subst hcache
    constructor
    · rintro ⟨l, hl, hlv⟩
      cases hfi : findInvalidIdx (caches.getD a.coreId []) with
      | none =>
        have := findInvalidIdx_none_forall hfi l hl
        rw [hlv] at this
        exact absurd this Bool.false_ne_true
      | some i =>
        have hvic : victimIdx (caches.getD a.coreId []) = i := by rw [victimIdx, hfi]
        obtain ⟨_, hval⟩ := findInvalidIdx_some hfi
        refine ⟨by rw [hvic]; exact hval, ?_⟩
        rw [miss_evicted_flag a caches time hf, hvic, hval]
    · intro hall hne
      have hfi : findInvalidIdx (caches.getD a.coreId []) = none :=
        findInvalidIdx_eq_none hall
      have hvic : victimIdx (caches.getD a.coreId []) = lruIdx (caches.getD a.coreId []) := by
        rw [victimIdx, hfi]
      refine ⟨hvic, by rw [hvic]; exact lruIdx_lt_length _ hne, ?_, ?_, ?_⟩
      · intro k hk
        rw [hvic]
        exact lruIdx_min _ k hk
      · intro k hk hr
        rw [hvic]
        rw [hvic] at hr
        exact lruIdx_first _ k hk hr
      · rw [miss_evicted_flag a caches time hf, hvic]
        apply hall
        rw [List.getD_eq_getElem _ _ (lruIdx_lt_length _ hne)]
        exact List.getElem_mem _
  · intro t0 t1 t2 t3 t4 h01 h02 h03 h04 h12 h13 h14 h23 h24 h34
    have hbt : ∀ t : Nat, blockTag (4 * t) = t := fun t => by
      simp [blockTag, lineSize, Nat.mul_div_cancel_left]
    have hoff : ∀ t : Nat, lineOffset (4 * t) = 0 := fun t => by
      simp [lineOffset, lineSize, Nat.mul_mod_right]
    have e1 : simulateCacheAccess ⟨0, 0, 4 * t0, .read⟩ (initializeCache 1) 0 =
        (⟨0, 0, 4 * t0, .miss, [], false⟩,
         [[⟨true, t0, .shared, 0, 0⟩, emptyLine, emptyLine, emptyLine]]) := by
      have hf : findLineIdx ((initializeCache 1).getD 0 []) (blockTag (4 * t0)) = none := by
        simp [initializeCache, cacheCapacity, findLineIdx, emptyLine]
      rw [simulate_read_miss hf]
      simp [initializeCache, cacheCapacity, victimIdx, findInvalidIdx, emptyLine, hbt, hoff]
    have e2 : simulateCacheAccess ⟨1, 0, 4 * t1, .read⟩
        [[⟨true, t0, .shared, 0, 0⟩, emptyLine, emptyLine, emptyLine]] 1 =
        (⟨1, 0, 4 * t1, .miss, [], false⟩,
         [[⟨true, t0, .shared, 0, 0⟩, ⟨true, t1, .shared, 1, 0⟩, emptyLine, emptyLine]]) := by
      have hf : findLineIdx ([[⟨true, t0, .shared, 0, 0⟩, emptyLine, emptyLine,
          emptyLine]].getD 0 []) (blockTag (4 * t1)) = none := by
        simp [findLineIdx, emptyLine, hbt, h01]
      rw [simulate_read_miss hf]
      simp [victimIdx, findInvalidIdx, emptyLine, hbt, hoff]
    have e3 : simulateCacheAccess ⟨2, 0, 4 * t2, .read⟩
        [[⟨true, t0, .shared, 0, 0⟩, ⟨true, t1, .shared, 1, 0⟩, emptyLine, emptyLine]] 2 =
        (⟨2, 0, 4 * t2, .miss, [], false⟩,
         [[⟨true, t0, .shared, 0, 0⟩, ⟨true, t1, .shared, 1, 0⟩,
           ⟨true, t2, .shared, 2, 0⟩, emptyLine]]) := by
      have hf : findLineIdx ([[⟨true, t0, .shared, 0, 0⟩, ⟨true, t1, .shared, 1, 0⟩,
          emptyLine, emptyLine]].getD 0 []) (blockTag (4 * t2)) = none := by
        simp [findLineIdx, emptyLine, hbt, h02, h12]
      rw [simulate_read_miss hf]
      simp [victimIdx, findInvalidIdx, emptyLine, hbt, hoff]
    have e4 : simulateCacheAccess ⟨3, 0, 4 * t3, .read⟩
        [[⟨true, t0, .shared, 0, 0⟩, ⟨true, t1, .shared, 1, 0⟩,
          ⟨true, t2, .shared, 2, 0⟩, emptyLine]] 3 =
        (⟨3, 0, 4 * t3, .miss, [], false⟩,
         [[⟨true, t0, .shared, 0, 0⟩, ⟨true, t1, .shared, 1, 0⟩,
           ⟨true, t2, .shared, 2, 0⟩, ⟨true, t3, .shared, 3, 0⟩]]) := by
      have hf : findLineIdx ([[⟨true, t0, .shared, 0, 0⟩, ⟨true, t1, .shared, 1, 0⟩,
          ⟨true, t2, .shared, 2, 0⟩, emptyLine]].getD 0 []) (blockTag (4 * t3)) = none := by
        simp [findLineIdx, emptyLine, hbt, h03, h13, h23]
      rw [simulate_read_miss hf]
      simp [victimIdx, findInvalidIdx, emptyLine, hbt, hoff]
    have e5 : simulateCacheAccess ⟨4, 0, 4 * t4, .read⟩
        [[⟨true, t0, .shared, 0, 0⟩, ⟨true, t1, .shared, 1, 0⟩,
          ⟨true, t2, .shared, 2, 0⟩, ⟨true, t3, .shared, 3, 0⟩]] 4 =
        (⟨4, 0, 4 * t4, .miss, [], true⟩,
         [[⟨true, t4, .shared, 4, 0⟩, ⟨true, t1, .shared, 1, 0⟩,
           ⟨true, t2, .shared, 2, 0⟩, ⟨true, t3, .shared, 3, 0⟩]]) := by
      have hf : findLineIdx ([[⟨true, t0, .shared, 0, 0⟩, ⟨true, t1, .shared, 1, 0⟩,
          ⟨true, t2, .shared, 2, 0⟩, ⟨true, t3, .shared, 3, 0⟩]].getD 0 [])
          (blockTag (4 * t4)) = none := by
        simp [findLineIdx, hbt, h04, h14, h24, h34]
      rw [simulate_read_miss hf]
      simp [victimIdx, findInvalidIdx, lruIdx, emptyLine, hbt, hoff]
    have hrun4 : runEvents [⟨0, 0, 4 * t0, .read⟩, ⟨1, 0, 4 * t1, .read⟩,
        ⟨2, 0, 4 * t2, .read⟩, ⟨3, 0, 4 * t3, .read⟩] (initializeCache 1) 0 =
        ([⟨0, 0, 4 * t0, .miss, [], false⟩, ⟨1, 0, 4 * t1, .miss, [], false⟩,
          ⟨2, 0, 4 * t2, .miss, [], false⟩, ⟨3, 0, 4 * t3, .miss, [], false⟩],
         [[⟨true, t0, .shared, 0, 0⟩, ⟨true, t1, .shared, 1, 0⟩,
           ⟨true, t2, .shared, 2, 0⟩, ⟨true, t3, .shared, 3, 0⟩]]) := by
      simp only [runEvents, e1, e2, e3, e4]
    have hrun5 : runEvents (lruScenario t0 t1 t2 t3 t4) (initializeCache 1) 0 =
        ([⟨0, 0, 4 * t0, .miss, [], false⟩, ⟨1, 0, 4 * t1, .miss, [], false⟩,
          ⟨2, 0, 4 * t2, .miss, [], false⟩, ⟨3, 0, 4 * t3, .miss, [], false⟩,
          ⟨4, 0, 4 * t4, .miss, [], true⟩],
         [[⟨true, t4, .shared, 4, 0⟩, ⟨true, t1, .shared, 1, 0⟩,
           ⟨true, t2, .shared, 2, 0⟩, ⟨true, t3, .shared, 3, 0⟩]]) := by
      simp only [lruScenario, runEvents, e1, e2, e3, e4, e5]
    refine ⟨by rw [hrun5]; rfl, ?_, ?_, ?_⟩
    · rw [show (lruScenario t0 t1 t2 t3 t4).take 4 = [⟨0, 0, 4 * t0, .read⟩,
        ⟨1, 0, 4 * t1, .read⟩, ⟨2, 0, 4 * t2, .read⟩, ⟨3, 0, 4 * t3, .read⟩] from rfl,
        hrun4]
      rfl
    · simp [victimIdx, findInvalidIdx, lruIdx, emptyLine]
    · intro k hk
      interval_cases k <;> simp

/-- Witness for C4: the single-core initial state has an invalid slot, so
a first read evicts nothing; and the concrete tags 0,1,2,3,4 realize the
C+1-distinct-reads scenario with exactly one eviction at the fifth
access. -/
theorem lru_victim_selection_witness :
    ((∃ l ∈ (initializeCache 1).getD 0 [], l.valid = false) ∧
     (((initializeCache 1).getD 0 []).getD (victimIdx ((initializeCache 1).getD 0 []))
       emptyLine).valid = false ∧
     (simulateCacheAccess ⟨0, 0, 0, .read⟩ (initializeCache 1) 0).1.evicted = false) ∧
    ((0 : Nat) ≠ 1 ∧
     (runEvents (lruScenario 0 1 2 3 4) (initializeCache 1) 0).1.map
       (fun e => e.evicted) = [false, false, false, false, true]) := by
  constructor
  · exact ⟨by decide,
      (lru_victim_selection.1 ⟨0, 0, 0, .read⟩ (initializeCache 1) 0
        ((initializeCache 1).getD 0 []) rfl (by decide)).1 (by decide)⟩
  · exact ⟨by decide,
      (lru_victim_selection.2 0 1 2 3 4 (by decide) (by decide) (by decide) (by decide)
        (by decide) (by decide) (by decide) (by decide) (by decide) (by decide)).1⟩

end CacheSim
